import Mathlib

/-!
Verification of the chartmuseum-to-OCI migration tool against its design
specification.  The Go source (`main.go`) is shallowly embedded below: pure
helpers become Lean functions over `List Char` / `String`, the HTTP and
subprocess boundary becomes explicit oracles, and the paginated listing loop
becomes fuel-indexed recursion.  Errors are `Except` values; a call to
`log.Fatal` (which terminates the process) is modelled by a distinguished
`fatal` outcome.
-/

namespace Cm2Oci

/-! ## Version gate: extraction (from `extractVersionFromOutput`) -/

/-- Embedding of `strings.TrimPrefix(output, "v")`: drop one leading `v`. -/
def trimPrefixV (s : List Char) : List Char :=
  match s with
  | [] => []
  | c :: rest => if c = 'v' then rest else c :: rest

/-- Embedding of `strings.Split(s, sep)` for a one-character separator. -/
def splitOnChar (sep : Char) : List Char → List (List Char)
  | [] => [[]]
  | c :: cs =>
    if c = sep then [] :: splitOnChar sep cs
    else
      match splitOnChar sep cs with
      | [] => [[c]]
      | h :: t => (c :: h) :: t

/-- Embedding of `extractVersionFromOutput`: strip an optional leading `v`,
drop everything from the first `+` on, and demand exactly three
dot-separated components; the Go function returns `""` on failure, modelled
as the empty character list. -/
def extractVersionFromOutput (output : List Char) : List Char :=
  let version := trimPrefixV output
  let version := version.takeWhile (fun c => c != '+')
  if (splitOnChar '.' version).length = 3 then version else []

/-! ## Vendored semver library (`rogpeppe/go-internal/semver`, a copy of
`golang.org/x/mod/semver`), the part reached by `checkHelmVersion` -/

def isDigitCh (c : Char) : Bool :=
  decide ('0' ≤ c) && decide (c ≤ '9')

def isIdentCh (c : Char) : Bool :=
  (decide ('A' ≤ c) && decide (c ≤ 'Z')) ||
  (decide ('a' ≤ c) && decide (c ≤ 'z')) ||
  (decide ('0' ≤ c) && decide (c ≤ '9')) ||
  decide (c = '-')

/-- `isBadNum`: an all-digit identifier with a forbidden leading zero. -/
def isBadNum (v : List Char) : Bool :=
  v.all isDigitCh && decide (1 < v.length) && decide (v.head? = some '0')

/-- `parseInt`: a nonempty digit run with no leading zero (unless it is
exactly "0"); returns the digits and the unconsumed remainder. -/
def parseIntSem (v : List Char) : Option (List Char × List Char) :=
  match v with
  | [] => none
  | c :: cs =>
    if isDigitCh c then
      if c = '0' && !(cs.takeWhile isDigitCh).isEmpty then none
      else some (c :: cs.takeWhile isDigitCh, cs.dropWhile isDigitCh)
    else none

/-- `parsePrerelease`: a `-`-introduced dotted identifier list, stopping at
the first `+`; each identifier must be nonempty, made of identifier
characters, and not a numeric identifier with a leading zero. -/
def parsePrereleaseSem (v : List Char) : Option (List Char × List Char) :=
  match v with
  | '-' :: rest =>
    let body := rest.takeWhile (fun c => c != '+')
    let after := rest.dropWhile (fun c => c != '+')
    if (splitOnChar '.' body).all
        (fun id => !id.isEmpty && id.all isIdentCh && !(isBadNum id)) then
      some ('-' :: body, after)
    else none
  | _ => none

/-- `parseBuild`: a `+`-introduced dotted identifier list running to the end
of the string; identifiers must be nonempty identifier-character runs
(leading zeros are allowed here). -/
def parseBuildSem (v : List Char) : Option (List Char × List Char) :=
  match v with
  | '+' :: rest =>
    if (splitOnChar '.' rest).all (fun id => !id.isEmpty && id.all isIdentCh) then
      some ('+' :: rest, [])
    else none
  | _ => none

def parsePrereleaseOpt (v : List Char) : Option (List Char × List Char) :=
  match v with
  | '-' :: _ => parsePrereleaseSem v
  | _ => some ([], v)

def parseBuildOpt (v : List Char) : Option (List Char × List Char) :=
  match v with
  | '+' :: _ => parseBuildSem v
  | _ => some ([], v)

/-- The `parsed` record of the semver library (the `short` display field is
omitted: nothing the tool calls reads it). -/
structure SemParsed where
  major : List Char
  minor : List Char
  patch : List Char
  prerelease : List Char
  build : List Char
deriving DecidableEq, Repr

/-- `semver.parse`: `v` prefix, dotted numeric core with elided minor/patch
filled in as `0`, then optional prerelease and build parts, and nothing may
remain. -/
def semverParse (v : List Char) : Option SemParsed :=
  match v with
  | [] => none
  | c :: rest =>
    if c = 'v' then
      match parseIntSem rest with
      | none => none
      | some (maj, r1) =>
        match r1 with
        | [] => some ⟨maj, ['0'], ['0'], [], []⟩
        | d1 :: r2 =>
          if d1 = '.' then
            match parseIntSem r2 with
            | none => none
            | some (mino, r3) =>
              match r3 with
              | [] => some ⟨maj, mino, ['0'], [], []⟩
              | d2 :: r4 =>
                if d2 = '.' then
                  match parseIntSem r4 with
                  | none => none
                  | some (pat, r5) =>
                    match parsePrereleaseOpt r5 with
                    | none => none
                    | some (pre, r6) =>
                      match parseBuildOpt r6 with
                      | none => none
                      | some (bld, r7) =>
                        if r7.isEmpty then some ⟨maj, mino, pat, pre, bld⟩
                        else none
                else none
          else none
    else none

def semverIsValid (v : List Char) : Bool :=
  (semverParse v).isSome

/-- Go byte-wise string comparison `x < y` (strict lexicographic order). -/
def charListLt : List Char → List Char → Bool
  | [], [] => false
  | [], _ :: _ => true
  | _ :: _, [] => false
  | a :: as_, b :: bs => if a = b then charListLt as_ bs else decide (a < b)

/-- `semver.compareInt` on canonical numeric strings: shorter means smaller,
equal length falls back to lexicographic order. -/
def compareIntSem (x y : List Char) : Int :=
  if x = y then 0
  else if x.length < y.length then -1
  else if y.length < x.length then 1
  else if charListLt x y then -1 else 1

/-- The identifier-difference branch of `comparePrerelease`: numeric
identifiers sort before alphanumeric ones and numerically among themselves,
otherwise byte order decides. -/
def cmpIdentDiff (dx dy : List Char) : Int :=
  let ix := dx.all isDigitCh
  let iy := dy.all isDigitCh
  if ix ≠ iy then (if ix then -1 else 1)
  else if ix && decide (dx.length < dy.length) then -1
  else if ix && decide (dy.length < dx.length) then 1
  else if charListLt dx dy then -1 else 1

/-- The identifier-walking loop of `semver.comparePrerelease`; both inputs
still carry their leading `-` (or `.` at each later round), which the loop
skips before comparing the next identifiers. -/
def comparePrereleaseLoop (x y : List Char) : Int :=
  match x, y with
  | [], _ => -1
  | _ :: _, [] => 1
  | _ :: xs, _ :: ys =>
    let dx := xs.takeWhile (fun c => c != '.')
    let x2 := xs.dropWhile (fun c => c != '.')
    let dy := ys.takeWhile (fun c => c != '.')
    let y2 := ys.dropWhile (fun c => c != '.')
    if dx = dy then comparePrereleaseLoop x2 y2 else cmpIdentDiff dx dy
termination_by x.length
decreasing_by
  simp only [List.length_cons]
  have h : (xs.dropWhile (fun c => c != '.')).length ≤ xs.length :=
    List.Sublist.length_le (List.dropWhile_sublist _)
  omega

/-- `semver.comparePrerelease`: an absent prerelease sorts after any
present one. -/
def comparePrerelease (x y : List Char) : Int :=
  if x = y then 0
  else if x.isEmpty then 1
  else if y.isEmpty then -1
  else comparePrereleaseLoop x y

/-- `semver.Compare`: invalid before valid, then major, minor, patch,
prerelease. -/
def semverCompare (v w : List Char) : Int :=
  match semverParse v, semverParse w with
  | none, none => 0
  | none, some _ => -1
  | some _, none => 1
  | some pv, some pw =>
    let c1 := compareIntSem pv.major pw.major
    if c1 ≠ 0 then c1
    else
      let c2 := compareIntSem pv.minor pw.minor
      if c2 ≠ 0 then c2
      else
        let c3 := compareIntSem pv.patch pw.patch
        if c3 ≠ 0 then c3
        else comparePrerelease pv.prerelease pw.prerelease

/-! ## Version gate: `checkHelmVersion` -/

/-- The failure taxonomy of the gate, named as in the specification. -/
inductive VersionError
  | parseError (output : List Char)
  | formatError (version : List Char)
  | tooOldError (version : List Char)
deriving DecidableEq, Repr

/-- The `minVersion` constant `"v3.19.0"`. -/
def minVersionChars : List Char := ['v', '3', '.', '1', '9', '.', '0']

/-- Embedding of `checkHelmVersion` from the trimmed `helm version --short`
output onward (running the subprocess and `strings.TrimSpace` are the
caller's side of the boundary): extract, validate with the semver library,
and compare against the minimum. -/
def checkHelmVersion (versionOutput : List Char) : Except VersionError Unit :=
  let versionStr := extractVersionFromOutput versionOutput
  if versionStr.isEmpty then Except.error (VersionError.parseError versionOutput)
  else if !(semverIsValid ('v' :: versionStr)) then
    Except.error (VersionError.formatError versionStr)
  else if semverCompare ('v' :: versionStr) minVersionChars < 0 then
    Except.error (VersionError.tooOldError versionStr)
  else Except.ok ()

/-! ## Specification-side semantic-version ordering -/

/-- Numeric value of a digit string (most significant first). -/
def digitsToNat : List Char → Nat
  | [] => 0
  | c :: cs => (c.toNat - 48) * 10 ^ cs.length + digitsToNat cs

/-- Canonical numeric component as produced by `parseInt`: nonempty, all
digits, no leading zero unless the component is exactly `0`. -/
def CanonicalNum (l : List Char) : Prop :=
  l ≠ [] ∧ l.all isDigitCh = true ∧ (l.head? = some '0' → l.length = 1)

/-- Three-way comparison of natural numbers, the mathematical reading of
`compareInt`. -/
def natCmpInt (a b : Nat) : Int :=
  if a < b then -1 else if a = b then 0 else 1

/-- Strictly below the minimum `v3.19.0` in semantic-version order, stated
from the specification's words: numerically below on (major, minor, patch),
or equal to the minimum triple but carrying a prerelease (SemVer places a
prerelease strictly below its release). -/
def specBelowMin (p : SemParsed) : Prop :=
  digitsToNat p.major < 3
  ∨ (digitsToNat p.major = 3 ∧ digitsToNat p.minor < 19)
  ∨ (digitsToNat p.major = 3 ∧ digitsToNat p.minor = 19 ∧
     digitsToNat p.patch = 0 ∧ p.prerelease ≠ [])

/-! ## Inventory lister (`getHarborChartmuseumCharts` and helpers) -/

/-- The `HelmChart` record: one migratable (project, name, version) unit. -/
structure HelmChart where
  Name : String
  Project : String
  Version : String
deriving DecidableEq, Repr

/-- `HelmChart.ChartFileName`: the `"<name>-<version>.tgz"` temporary file
name. -/
def HelmChart.ChartFileName (hc : HelmChart) : String :=
  hc.Name ++ "-" ++ hc.Version ++ ".tgz"

/-- `ProjectsToMigrateList.Includes`: linear scan with `==`. -/
def Includes (l : List String) (a : String) : Bool :=
  match l with
  | [] => false
  | b :: rest => if b = a then true else Includes rest a

/-- `defaultPageSize = 10`. -/
def defaultPageSize : Nat := 10

/-- The Harbor inventory API boundary: paginated project listing (payload of
project names plus the `X-Total-Count` header), per-project chart-name
listing, and per-(project, name) version listing.  Each call either yields
a payload or an HTTP error. -/
structure HarborOracle where
  listProjects : Nat → Nat → Except String (Nat × List String)
  repoCharts : String → Except String (List String)
  chartVersions : String → String → Except String (List String)

/-- Outcome of the whole listing: a successful chart list, a returned error
(`return nil, err` in the source), or process termination via `log.Fatal`
on a page-listing failure. -/
inductive ListOutcome
  | ok (charts : List HelmChart)
  | err (msg : String)
  | fatal (msg : String)
deriving DecidableEq, Repr

def ListOutcome.isFailure : ListOutcome → Bool
  | ListOutcome.ok _ => false
  | ListOutcome.err _ => true
  | ListOutcome.fatal _ => true

/-- Descriptors actually yielded to the driver: only a successful outcome
delivers any. -/
def yieldedCharts : Option (ListOutcome × Nat) → List HelmChart
  | some (ListOutcome.ok cs, _) => cs
  | _ => []

/-- Inner loop of `getHarborProjectChartmuseumCharts`: for each chart name,
fetch its version list and emit one `HelmChart` per version, aborting the
whole project listing on the first error. -/
def projectChartsLoop (o : HarborOracle) (projectName : String) :
    List String → Except String (List HelmChart)
  | [] => Except.ok []
  | name :: rest =>
    match o.chartVersions projectName name with
    | Except.error e =>
      Except.error ("fail to get chart " ++ name ++ " in project " ++ projectName ++ ": " ++ e)
    | Except.ok versions =>
      match projectChartsLoop o projectName rest with
      | Except.error e => Except.error e
      | Except.ok more =>
        Except.ok (versions.map (fun v => HelmChart.mk name projectName v) ++ more)

/-- `getHarborProjectChartmuseumCharts`: list the chart names of one project
and expand each into per-version descriptors. -/
def getHarborProjectChartmuseumCharts (o : HarborOracle) (projectName : String) :
    Except String (List HelmChart) :=
  match o.repoCharts projectName with
  | Except.error e => Except.error ("fail to list harbor projects: " ++ e)
  | Except.ok charts => projectChartsLoop o projectName charts

/-- One page's project loop inside `getHarborChartmuseumCharts`: skip a
project when a nonempty filter does not include it, otherwise gather its
charts; the first project error aborts the page (and, upstream, the whole
listing). -/
def pageProjectsLoop (o : HarborOracle) (filter : List String) :
    List String → Except String (List HelmChart)
  | [] => Except.ok []
  | p :: rest =>
    if decide (0 < filter.length) && !(Includes filter p) then
      pageProjectsLoop o filter rest
    else
      match getHarborProjectChartmuseumCharts o p with
      | Except.error e =>
        Except.error ("fail to migrate charts from project " ++ p ++ ": " ++ e)
      | Except.ok cs =>
        match pageProjectsLoop o filter rest with
        | Except.error e => Except.error e
        | Except.ok more => Except.ok (cs ++ more)

/-- The pagination loop of `getHarborChartmuseumCharts`, fuel-indexed (the
Go loop is unbounded; `none` means the given fuel ran out before the loop
stopped).  The returned `Nat` is the last page that was requested.  A page
listing error is `log.Fatal` in the source, hence `fatal`; a project error
returns from the function, discarding the accumulator. -/
def chartsLoop (o : HarborOracle) (filter : List String) :
    Nat → Nat → List HelmChart → Option (ListOutcome × Nat)
  | 0, _, _ => none
  | fuel + 1, page, acc =>
    match o.listProjects page defaultPageSize with
    | Except.error e =>
      some (ListOutcome.fatal ("fail to list harbor projects of page: " ++ e), page)
    | Except.ok (total, payload) =>
      match pageProjectsLoop o filter payload with
      | Except.error e => some (ListOutcome.err e, page)
      | Except.ok cs =>
        if total ≤ page * defaultPageSize then some (ListOutcome.ok (acc ++ cs), page)
        else chartsLoop o filter fuel (page + 1) (acc ++ cs)

/-- `getHarborChartmuseumCharts`: run the pagination loop from page 1 with
an empty accumulator. -/
def getHarborChartmuseumCharts (o : HarborOracle) (filter : List String)
    (fuel : Nat) : Option (ListOutcome × Nat) :=
  chartsLoop o filter fuel 1 []

/-- Keep exactly the projects the Go condition does not `continue` past. -/
def keepProject (filter : List String) (p : String) : Bool :=
  !(decide (0 < filter.length) && !(Includes filter p))

/-- The same inventory with each page's payload pre-restricted to the kept
projects (total count untouched). -/
def filterOracle (o : HarborOracle) (filter : List String) : HarborOracle :=
  HarborOracle.mk
    (fun page sz =>
      match o.listProjects page sz with
      | Except.error e => Except.error e
      | Except.ok (total, payload) => Except.ok (total, payload.filter (keepProject filter)))
    o.repoCharts
    o.chartVersions

/-- The loop stopped with at most `k` as its last requested page. -/
def stopsWithin (res : Option (ListOutcome × Nat)) (k : Nat) : Bool :=
  match res with
  | some (_, q) => decide (q ≤ k)
  | none => false

/-! ## Artifact transfer (`migrateChartFromChartmuseumToOCI` and helpers) -/

/-- Run configuration: the parsed flags and derived host actually read by
the transfer stage. -/
structure RunConfig where
  harborURL : String
  harborHost : String
  destPath : String
  harborUsername : String
  harborPassword : String
  insecure : Bool
  plainHttp : Bool

/-- Observable outward operations of one transfer, in program order: an HTTP
request (method, url, basic-auth credentials) to the legacy backend, a local
temp-file write, a `helm` subprocess invocation, a local file deletion. -/
inductive Effect
  | http (method : String) (url : String) (user : String) (pass : String)
  | writeFile (name : String)
  | execCmd (bin : String) (args : List String)
  | removeFile (name : String)
deriving DecidableEq, Repr

def isRemoveEffect : Effect → Bool
  | Effect.removeFile _ => true
  | _ => false

/-- The world at the transfer boundary: the chart download endpoint, the
local filesystem, and the `helm` binary. -/
structure WorldOracle where
  httpGet : String → Except String (Nat × List Nat)
  writeFile : String → List Nat → Except String Unit
  runHelm : List String → Except String Unit
  removeFile : String → Except String Unit

/-- Fetch-step failures: transport error, non-200 status, or failed local
write. -/
inductive FetchErr
  | transport (msg : String)
  | badStatus (code : Nat)
  | writeFailed (msg : String)
deriving DecidableEq, Repr

/-- Transfer failures tagged by the sub-step that raised them, as in the
specification's taxonomy (each Go wrap becomes one constructor). -/
inductive TransferError
  | fetch (e : FetchErr)
  | push (stderr : String)
  | cleanup (msg : String)
deriving DecidableEq, Repr

/-- The chartmuseum download URL
`<harborURL>/chartrepo/<project>/charts/<file>`. -/
def chartURL (cfg : RunConfig) (hc : HelmChart) : String :=
  cfg.harborURL ++ "/chartrepo/" ++ hc.Project ++ "/charts/" ++ hc.ChartFileName

/-- The destination OCI coordinate `oci://<host>/<project><destPath>`. -/
def repoURL (cfg : RunConfig) (hc : HelmChart) : String :=
  "oci://" ++ cfg.harborHost ++ "/" ++ hc.Project ++ cfg.destPath

/-- Arguments of the `helm push` invocation, transport flags passed through
as configured. -/
def pushArgs (cfg : RunConfig) (hc : HelmChart) : List String :=
  ["push", hc.ChartFileName, repoURL cfg hc]
    ++ (if cfg.insecure then ["--insecure-skip-tls-verify"] else [])
    ++ (if cfg.plainHttp then ["--plain-http"] else [])

/-- `pullChartFromChartmuseum`: authenticated GET of the chart payload,
require status 200, write the body to the local temp file.  Returns the
step result plus the effects it performed. -/
def pullChartFromChartmuseum (cfg : RunConfig) (w : WorldOracle) (hc : HelmChart) :
    Except FetchErr Unit × List Effect :=
  let url := chartURL cfg hc
  let getEffect := Effect.http "GET" url cfg.harborUsername cfg.harborPassword
  match w.httpGet url with
  | Except.error e => (Except.error (FetchErr.transport e), [getEffect])
  | Except.ok (status, body) =>
    if status ≠ 200 then (Except.error (FetchErr.badStatus status), [getEffect])
    else
      match w.writeFile hc.ChartFileName body with
      | Except.error e =>
        (Except.error (FetchErr.writeFailed e), [getEffect, Effect.writeFile hc.ChartFileName])
      | Except.ok _ => (Except.ok (), [getEffect, Effect.writeFile hc.ChartFileName])

/-- `pushChartToOCI`: invoke `helm push` on the temp file. -/
def pushChartToOCI (cfg : RunConfig) (w : WorldOracle) (hc : HelmChart) :
    Except String Unit × List Effect :=
  let args := pushArgs cfg hc
  match w.runHelm args with
  | Except.error e => (Except.error e, [Effect.execCmd "helm" args])
  | Except.ok _ => (Except.ok (), [Effect.execCmd "helm" args])

/-- `removeChartFile`: delete the local temp file. -/
def removeChartFile (w : WorldOracle) (hc : HelmChart) :
    Except String Unit × List Effect :=
  match w.removeFile hc.ChartFileName with
  | Except.error e => (Except.error e, [Effect.removeFile hc.ChartFileName])
  | Except.ok _ => (Except.ok (), [Effect.removeFile hc.ChartFileName])

/-- `migrateChartFromChartmuseumToOCI`: pull, then push, then remove, each
step short-circuiting on error exactly as the Go `if err != nil; return`
chain does. -/
def migrateChartFromChartmuseumToOCI (cfg : RunConfig) (w : WorldOracle) (hc : HelmChart) :
    Except TransferError Unit × List Effect :=
  match pullChartFromChartmuseum cfg w hc with
  | (Except.error e, tr) => (Except.error (TransferError.fetch e), tr)
  | (Except.ok _, tr1) =>
    match pushChartToOCI cfg w hc with
    | (Except.error e, tr2) => (Except.error (TransferError.push e), tr1 ++ tr2)
    | (Except.ok _, tr2) =>
      match removeChartFile w hc with
      | (Except.error e, tr3) => (Except.error (TransferError.cleanup e), tr1 ++ tr2 ++ tr3)
      | (Except.ok _, tr3) => (Except.ok (), tr1 ++ tr2 ++ tr3)

/-- Per-effect predicate for the read-only-source invariant: any HTTP
request must be a GET of this chart's download URL, and any file deletion
must target the local temp file. -/
def sourceReadOnly (cfg : RunConfig) (hc : HelmChart) (e : Effect) : Bool :=
  match e with
  | Effect.http m u _ _ => m == "GET" && u == chartURL cfg hc
  | Effect.removeFile n => n == hc.ChartFileName
  | _ => true

/-! ## Migration driver (the transfer loop of `main`) -/

def exceptFailed {ε α : Type} : Except ε α → Bool
  | Except.error _ => true
  | Except.ok _ => false

/-- The driver's transfer loop: process each descriptor in order, counting
failed transfers and continuing past them; also returns the processing
trace. -/
def migrationLoop (cfg : RunConfig) (w : WorldOracle) :
    List HelmChart → Nat → Nat × List HelmChart
  | [], errorCount => (errorCount, [])
  | hc :: rest, errorCount =>
    let res := migrateChartFromChartmuseumToOCI cfg w hc
    let ec2 := if exceptFailed res.1 then errorCount + 1 else errorCount
    let r := migrationLoop cfg w rest ec2
    (r.1, hc :: r.2)

/-- The two printed counts of the final report. -/
structure RunReport where
  toMigrate : Nat
  migrated : Nat
deriving DecidableEq, Repr

/-- The reporting part of `main` after a successful listing: announce the
chart count, run the transfer loop, report successes as total minus
failures. -/
def mainRun (cfg : RunConfig) (w : WorldOracle) (helmChartsToMigrate : List HelmChart) :
    RunReport × List HelmChart :=
  let r := migrationLoop cfg w helmChartsToMigrate 0
  (RunReport.mk helmChartsToMigrate.length (helmChartsToMigrate.length - r.1), r.2)

/-! ## Concrete instances used by witnesses and counterexamples -/

def cfg0 : RunConfig :=
  RunConfig.mk "https://harbor.example.com" "harbor.example.com" "" "admin" "pw" false false

def hc0 : HelmChart := HelmChart.mk "demo" "team-a" "1.0.0"

def hc1 : HelmChart := HelmChart.mk "app" "team-b" "2.0.0"

/-- A world whose `helm push` always fails with stderr `boom`. -/
def w0 : WorldOracle :=
  WorldOracle.mk
    (fun _ => Except.ok (200, []))
    (fun _ _ => Except.ok ())
    (fun _ => Except.error "boom")
    (fun _ => Except.ok ())

/-- An inventory returning total count 5 but only three tenants on page 1:
the loop stops after page 1 although only 3 of 5 reported tenants were
returned. -/
def oC2 : HarborOracle :=
  HarborOracle.mk
    (fun page _ =>
      if page = 1 then Except.ok (5, ["p1", "p2", "p3"])
      else Except.ok (5, ["p4", "p5"]))
    (fun _ => Except.ok [])
    (fun _ _ => Except.ok [])

/-- An inventory whose page 2 request fails after a successful page 1. -/
def oErr : HarborOracle :=
  HarborOracle.mk
    (fun page _ =>
      if page = 1 then Except.ok (11, ["p1"]) else Except.error "boom")
    (fun _ => Except.ok ["c1"])
    (fun _ _ => Except.ok ["1.0.0"])

/-- An inventory with no tenants at all (total count 0 on every page). -/
def o0 : HarborOracle :=
  HarborOracle.mk
    (fun _ _ => Except.ok (0, []))
    (fun _ => Except.ok [])
    (fun _ _ => Except.ok [])

/-- Number of descriptors whose transfer fails in a given world. -/
def countFail (cfg : RunConfig) (w : WorldOracle) (charts : List HelmChart) : Nat :=
  charts.countP (fun hc => exceptFailed (migrateChartFromChartmuseumToOCI cfg w hc).1)

/-! # Theorems -/

/-! ## Generic list and character lemmas -/

theorem takeWhile_append_of_all {α : Type} {p : α → Bool} :
    ∀ {l : List α}, (∀ x ∈ l, p x = true) → ∀ r, (l ++ r).takeWhile p = l ++ r.takeWhile p := by
  intro l
  induction l with
  | nil => intro _ r; simp
  | cons c cs ih =>
    intro h r
    have hc : p c = true := h c (by simp)
    simp only [List.cons_append, List.takeWhile_cons, hc, if_true]
    rw [ih (fun x hx => h x (by simp [hx])) r]

theorem takeWhile_of_all {α : Type} {p : α → Bool} {l : List α}
    (h : ∀ x ∈ l, p x = true) : l.takeWhile p = l := by
  have := takeWhile_append_of_all h []
  simpa using this

theorem splitOnChar_no_sep {sep : Char} :
    ∀ {l : List Char}, (∀ x ∈ l, x ≠ sep) → splitOnChar sep l = [l] := by
  intro l
  induction l with
  | nil => intro _; rfl
  | cons c cs ih =>
    intro h
    have hc : ¬(c = sep) := h c (by simp)
    simp only [splitOnChar, hc, if_false]
    rw [ih (fun x hx => h x (by simp [hx]))]

theorem splitOnChar_append {sep : Char} :
    ∀ {l : List Char}, (∀ x ∈ l, x ≠ sep) → ∀ r,
      splitOnChar sep (l ++ sep :: r) = l :: splitOnChar sep r := by
  intro l
  induction l with
  | nil => intro _ r; simp [splitOnChar]
  | cons c cs ih =>
    intro h r
    have hc : ¬(c = sep) := h c (by simp)
    simp only [List.cons_append, splitOnChar, hc, if_false, List.append_eq]
    rw [ih (fun x hx => h x (by simp [hx])) r]

theorem isDigitCh_not_special {c : Char} (h : isDigitCh c = true) :
    c ≠ 'v' ∧ c ≠ '+' ∧ c ≠ '.' := by
  refine ⟨?_, ?_, ?_⟩ <;> intro he <;> rw [he] at h <;> exact absurd h (by decide)

/-! ## Claim C5: extraction of the numeric core -/

theorem core_no_plus {a b c : List Char}
    (ha : a.all isDigitCh = true) (hb : b.all isDigitCh = true) (hc : c.all isDigitCh = true) :
    ∀ x ∈ a ++ ('.' :: (b ++ ('.' :: c))), (x != '+') = true := by
  intro x hx
  rw [bne_iff_ne]
  simp only [List.mem_append, List.mem_cons] at hx
  rcases hx with h1 | h2 | h3 | h4
  · exact (isDigitCh_not_special (by simpa using List.all_eq_true.1 ha x h1)).2.1
  · rw [h2]; decide
  · exact (isDigitCh_not_special (by simpa using List.all_eq_true.1 hb x h3)).2.1
  · rcases h4 with h5 | h6
    · rw [h5]; decide
    · exact (isDigitCh_not_special (by simpa using List.all_eq_true.1 hc x h6)).2.1

theorem splitOnChar_core {a b c : List Char}
    (ha : a.all isDigitCh = true) (hb : b.all isDigitCh = true) (hc : c.all isDigitCh = true) :
    splitOnChar '.' (a ++ ('.' :: (b ++ ('.' :: c)))) = [a, b, c] := by
  have hdot : ∀ (l : List Char), l.all isDigitCh = true → ∀ x ∈ l, x ≠ '.' := by
    intro l hl x hx
    exact (isDigitCh_not_special (by simpa using List.all_eq_true.1 hl x hx)).2.2
  rw [splitOnChar_append (hdot a ha), splitOnChar_append (hdot b hb),
    splitOnChar_no_sep (hdot c hc)]

/-- Claim C5: for every input made of a dotted three-part numeric version
with an optional leading `v` and an optional build-metadata suffix starting
at the first `+`, `extractVersionFromOutput` returns exactly the numeric
core with the `v` prefix and `+` suffix removed. -/
theorem extract_version_numeric_core :
    ∀ (a b c meta : List Char) (hasV hasMeta : Bool),
      a ≠ [] → b ≠ [] → c ≠ [] →
      a.all isDigitCh = true → b.all isDigitCh = true → c.all isDigitCh = true →
      extractVersionFromOutput
        ((if hasV then ['v'] else []) ++ (a ++ ('.' :: (b ++ ('.' :: c))))
          ++ (if hasMeta then '+' :: meta else []))
        = a ++ ('.' :: (b ++ ('.' :: c))) := by
  intro a b c meta hasV hasMeta hna hnb hnc ha hb hc
  have hplus := core_no_plus ha hb hc
  have htrim : trimPrefixV
      ((if hasV then ['v'] else []) ++ (a ++ ('.' :: (b ++ ('.' :: c))))
        ++ (if hasMeta then '+' :: meta else []))
      = (a ++ ('.' :: (b ++ ('.' :: c)))) ++ (if hasMeta then '+' :: meta else []) := by
    cases hasV with
    | true =>
      simp only [List.append_assoc]
      rfl
    | false =>
      obtain ⟨d, a2, rfl⟩ : ∃ d a2, a = d :: a2 := by
        cases a with
        | nil => exact absurd rfl hna
        | cons d a2 => exact ⟨d, a2, rfl⟩
      have hd : isDigitCh d = true := by simpa using (List.all_eq_true.1 ha d (by simp))
      have hdv : ¬(d = 'v') := (isDigitCh_not_special hd).1
      simp [trimPrefixV, hdv, List.append_assoc]
  have htake : ((a ++ ('.' :: (b ++ ('.' :: c)))) ++ (if hasMeta then '+' :: meta else [])).takeWhile
      (fun x => x != '+') = a ++ ('.' :: (b ++ ('.' :: c))) := by
    rw [takeWhile_append_of_all hplus]
    cases hasMeta with
    | true => simp [List.takeWhile_cons]
    | false => simp
  simp only [extractVersionFromOutput, htrim, htake, splitOnChar_core ha hb hc,
    List.length_cons, List.length_nil]
  rfl

/-- Concrete instance of claim C5 at `"v3.19.0+gce43812"`. -/
theorem extract_version_numeric_core_witness :
    extractVersionFromOutput
      ((if true then ['v'] else []) ++ (['3'] ++ ('.' :: (['1', '9'] ++ ('.' :: ['0']))))
        ++ (if true then '+' :: ['g', 'c', 'e', '4', '3', '8', '1', '2'] else []))
      = ['3'] ++ ('.' :: (['1', '9'] ++ ('.' :: ['0']))) :=
  extract_version_numeric_core ['3'] ['1', '9'] ['0'] ['g', 'c', 'e', '4', '3', '8', '1', '2']
    true true (by decide) (by decide) (by decide) (by decide) (by decide) (by decide)

/-! ## Claim C6: parse failure on a bad component count -/

/-- Claim C6: whenever the input, after stripping the optional `v` prefix
and the `+`-introduced suffix, does not split into exactly three
dot-separated components, the version gate fails with a parse error. -/
theorem gate_parse_error_on_bad_component_count :
    ∀ output : List Char,
      (splitOnChar '.' ((trimPrefixV output).takeWhile (fun c => c != '+'))).length ≠ 3 →
      checkHelmVersion output = Except.error (VersionError.parseError output) := by
  intro output h
  have he : extractVersionFromOutput output = [] := by
    simp only [extractVersionFromOutput, if_neg h]
  simp [checkHelmVersion, he]

/-- Concrete instance of claim C6 at `"v3.19"` (two components). -/
theorem gate_parse_error_on_bad_component_count_witness :
    checkHelmVersion ['v', '3', '.', '1', '9'] =
      Except.error (VersionError.parseError ['v', '3', '.', '1', '9']) :=
  gate_parse_error_on_bad_component_count ['v', '3', '.', '1', '9'] (by decide)

/-! ## Claim C7: numeric correctness of the semver comparison -/

theorem charLe_iff (a b : Char) : (a ≤ b) ↔ a.toNat ≤ b.toNat := Iff.rfl

theorem charLt_iff (a b : Char) : (a < b) ↔ a.toNat < b.toNat := Iff.rfl

theorem charEq_iff (a b : Char) : a = b ↔ a.toNat = b.toNat :=
  ⟨fun h => by rw [h], fun h => Char.ext (UInt32.ext h)⟩

theorem isDigitCh_bounds {c : Char} (h : isDigitCh c = true) :
    48 ≤ c.toNat ∧ c.toNat ≤ 57 := by
  simp only [isDigitCh, Bool.and_eq_true, decide_eq_true_eq] at h
  exact ⟨(charLe_iff '0' c).1 h.1, (charLe_iff c '9').1 h.2⟩

theorem digitsToNat_lt {l : List Char} (h : l.all isDigitCh = true) :
    digitsToNat l < 10 ^ l.length := by
  induction l with
  | nil => simp [digitsToNat]
  | cons c cs ih =>
    simp only [List.all_cons, Bool.and_eq_true] at h
    have hc := isDigitCh_bounds h.1
    have ihh := ih h.2
    simp only [digitsToNat, List.length_cons]
    calc (c.toNat - 48) * 10 ^ cs.length + digitsToNat cs
        < (c.toNat - 48) * 10 ^ cs.length + 10 ^ cs.length := Nat.add_lt_add_left ihh _
      _ = (c.toNat - 48 + 1) * 10 ^ cs.length := by ring
      _ ≤ 10 * 10 ^ cs.length := Nat.mul_le_mul_right _ (by omega)
      _ = 10 ^ (cs.length + 1) := by ring

theorem digitsToNat_ge {c : Char} (cs : List Char) (h : 49 ≤ c.toNat) :
    10 ^ cs.length ≤ digitsToNat (c :: cs) := by
  have h1 : 1 * 10 ^ cs.length ≤ (c.toNat - 48) * 10 ^ cs.length :=
    Nat.mul_le_mul_right _ (by omega)
  rw [one_mul] at h1
  simp only [digitsToNat]
  exact le_trans h1 (Nat.le_add_right _ _)

theorem charListLt_digits :
    ∀ (x y : List Char), x.all isDigitCh = true → y.all isDigitCh = true →
      x.length = y.length → x ≠ y →
      (charListLt x y = true → digitsToNat x < digitsToNat y)
      ∧ (charListLt x y = false → digitsToNat y < digitsToNat x) := by
  intro x
  induction x with
  | nil =>
    intro y _ _ hlen hne
    cases y with
    | nil => exact absurd rfl hne
    | cons b bs => simp at hlen
  | cons a as ih =>
    intro y hx hy hlen hne
    cases y with
    | nil => simp at hlen
    | cons b bs =>
      simp only [List.all_cons, Bool.and_eq_true] at hx hy
      have hlen2 : as.length = bs.length := by
        simpa using hlen
      have hpow : (10 : Nat) ^ as.length = 10 ^ bs.length := by rw [hlen2]
      by_cases hab : a = b
      · subst hab
        have hne2 : as ≠ bs := fun hh => hne (by rw [hh])
        have hrec := ih bs hx.2 hy.2 hlen2 hne2
        have hunf : charListLt (a :: as) (a :: bs) = charListLt as bs := by
          simp [charListLt]
        constructor
        · intro hlt
          rw [hunf] at hlt
          have hd := hrec.1 hlt
          simp only [digitsToNat, hpow]
          omega
        · intro hlt
          rw [hunf] at hlt
          have hd := hrec.2 hlt
          simp only [digitsToNat, hpow]
          omega
      · have hunf : charListLt (a :: as) (b :: bs) = decide (a < b) := by
          simp [charListLt, hab]
        have hA := isDigitCh_bounds hx.1
        have hB := isDigitCh_bounds hy.1
        have hxlt := digitsToNat_lt hx.2
        have hylt := digitsToNat_lt hy.2
        have key : ∀ (u v : Char) (us vs : List Char), u.toNat < v.toNat →
            48 ≤ u.toNat → us.length = vs.length →
            us.all isDigitCh = true →
            digitsToNat (u :: us) < digitsToNat (v :: vs) := by
          intro u v us vs huv hu hul hua
          have h1 : digitsToNat us < 10 ^ us.length := digitsToNat_lt hua
          have h2 : (u.toNat - 48) * 10 ^ us.length + 10 ^ us.length
              = (u.toNat - 48 + 1) * 10 ^ us.length := by ring
          have h3 : (u.toNat - 48 + 1) * 10 ^ us.length ≤ (v.toNat - 48) * 10 ^ us.length :=
            Nat.mul_le_mul_right _ (by omega)
          have h4 : (10 : Nat) ^ us.length = 10 ^ vs.length := by rw [hul]
          simp only [digitsToNat]
          rw [← h4]
          omega
        constructor
        · intro hlt
          rw [hunf] at hlt
          have hab2 : a.toNat < b.toNat := (charLt_iff a b).1 (of_decide_eq_true hlt)
          exact key a b as bs hab2 hA.1 hlen2 hx.2
        · intro hlt
          rw [hunf] at hlt
          have hnab : ¬(a < b) := of_decide_eq_false hlt
          have hba : b.toNat < a.toNat := by
            have := (charLt_iff a b).not.1 hnab
            have hne3 : a.toNat ≠ b.toNat := fun hh => hab ((charEq_iff a b).2 hh)
            omega
          exact key b a bs as hba hB.1 hlen2.symm hy.2

theorem dtn_head_pos {l : List Char} (hcanon : CanonicalNum l) (hlen : 2 ≤ l.length) :
    10 ^ (l.length - 1) ≤ digitsToNat l := by
  obtain ⟨c, cs, rfl⟩ : ∃ c cs, l = c :: cs := by
    cases l with
    | nil => simp at hlen
    | cons c cs => exact ⟨c, cs, rfl⟩
  have hd : isDigitCh c = true := by
    have := hcanon.2.1
    simp only [List.all_cons, Bool.and_eq_true] at this
    exact this.1
  have hb := isDigitCh_bounds hd
  have hne0 : c ≠ '0' := by
    intro hh
    have := hcanon.2.2 (by rw [hh]; rfl)
    simp only [List.length_cons] at this hlen
    omega
  have h49 : 49 ≤ c.toNat := by
    have : c.toNat ≠ 48 := fun hh => hne0 ((charEq_iff c '0').2 hh)
    omega
  simpa using digitsToNat_ge cs h49

theorem compareIntSem_correct {x y : List Char}
    (hx : CanonicalNum x) (hy : CanonicalNum y) :
    compareIntSem x y = natCmpInt (digitsToNat x) (digitsToNat y) := by
  have hx1 : 1 ≤ x.length := by
    cases hxl : x with
    | nil => exact absurd hxl hx.1
    | cons c cs => simp
  have hy1 : 1 ≤ y.length := by
    cases hyl : y with
    | nil => exact absurd hyl hy.1
    | cons c cs => simp
  by_cases hxy : x = y
  · subst hxy
    simp [compareIntSem, natCmpInt]
  · by_cases hlt : x.length < y.length
    · have hylen : 2 ≤ y.length := by omega
      have hge : 10 ^ (y.length - 1) ≤ digitsToNat y := dtn_head_pos hy hylen
      have hxlt : digitsToNat x < 10 ^ x.length := digitsToNat_lt hx.2.1
      have hpowle : (10 : Nat) ^ x.length ≤ 10 ^ (y.length - 1) :=
        Nat.pow_le_pow_right (by omega) (by omega)
      have hdlt : digitsToNat x < digitsToNat y := by omega
      rw [compareIntSem, if_neg hxy, if_pos hlt, natCmpInt, if_pos hdlt]
    · by_cases hgt : y.length < x.length
      · have hxlen : 2 ≤ x.length := by omega
        have hge : 10 ^ (x.length - 1) ≤ digitsToNat x := dtn_head_pos hx hxlen
        have hylt : digitsToNat y < 10 ^ y.length := digitsToNat_lt hy.2.1
        have hpowle : (10 : Nat) ^ y.length ≤ 10 ^ (x.length - 1) :=
          Nat.pow_le_pow_right (by omega) (by omega)
        have hdlt : digitsToNat y < digitsToNat x := by omega
        rw [compareIntSem, if_neg hxy, if_neg hlt, if_pos hgt, natCmpInt,
          if_neg (by omega), if_neg (by omega)]
      · have hlen : x.length = y.length := by omega
        have hch := charListLt_digits x y hx.2.1 hy.2.1 hlen hxy
        cases hcl : charListLt x y with
        | true =>
          have hdlt := hch.1 hcl
          rw [compareIntSem, if_neg hxy, if_neg hlt, if_neg hgt, if_pos hcl,
            natCmpInt, if_pos hdlt]
        | false =>
          have hdlt := hch.2 hcl
          rw [compareIntSem, if_neg hxy, if_neg hlt, if_neg hgt, if_neg (by simp [hcl]),
            natCmpInt, if_neg (by omega), if_neg (by omega)]

theorem comparePrerelease_nil (x : List Char) :
    comparePrerelease x [] = if x = [] then 0 else -1 := by
  by_cases h : x = []
  · subst h; simp [comparePrerelease]
  · have : x.isEmpty = false := by
      cases x with
      | nil => exact absurd rfl h
      | cons c cs => rfl
    simp [comparePrerelease, h, this]

theorem parseIntSem_canonical {v t rest : List Char}
    (h : parseIntSem v = some (t, rest)) : CanonicalNum t := by
  cases v with
  | nil => simp [parseIntSem] at h
  | cons c cs =>
    simp only [parseIntSem] at h
    by_cases hd : isDigitCh c = true
    · rw [if_pos hd] at h
      by_cases hz : (c = '0' && !(cs.takeWhile isDigitCh).isEmpty) = true
      · rw [if_pos hz] at h; simp at h
      · rw [if_neg hz] at h
        simp only [Option.some.injEq, Prod.mk.injEq] at h
        obtain ⟨ht, _⟩ := h
        subst ht
        refine ⟨by simp, ?_, ?_⟩
        · simp [List.all_cons, hd, List.all_takeWhile]
        · intro hh
          have hc0 : c = '0' := by simpa using hh
          subst hc0
          have hemp : (cs.takeWhile isDigitCh).isEmpty = true := by
            by_contra hnen
            have hf : (cs.takeWhile isDigitCh).isEmpty = false := by
              cases hb : (cs.takeWhile isDigitCh).isEmpty
              · rfl
              · exact absurd hb hnen
            exact hz (by simp [hf])
          have : cs.takeWhile isDigitCh = [] := by
            cases hcs : cs.takeWhile isDigitCh with
            | nil => rfl
            | cons a t => rw [hcs] at hemp; simp at hemp
          simp [this]
    · rw [if_neg hd] at h; simp at h

theorem canonical_three : CanonicalNum ['3'] :=
  ⟨by decide, by decide, fun _ => rfl⟩

theorem canonical_nineteen : CanonicalNum ['1', '9'] :=
  ⟨by decide, by decide, fun h => absurd h (by decide)⟩

theorem canonical_zero : CanonicalNum ['0'] :=
  ⟨by decide, by decide, fun _ => rfl⟩

theorem semverParse_canonical {v : List Char} {p : SemParsed}
    (h : semverParse v = some p) :
    CanonicalNum p.major ∧ CanonicalNum p.minor ∧ CanonicalNum p.patch := by
  cases v with
  | nil => simp [semverParse] at h
  | cons c rest =>
    simp only [semverParse] at h
    by_cases hc : c = 'v'
    case neg => rw [if_neg hc] at h; simp at h
    rw [if_pos hc] at h
    cases hm : parseIntSem rest with
    | none => rw [hm] at h; simp at h
    | some pr1 =>
      obtain ⟨maj, r1⟩ := pr1
      rw [hm] at h
      have hmaj := parseIntSem_canonical hm
      cases r1 with
      | nil =>
        simp only [Option.some.injEq] at h
        subst h
        exact ⟨hmaj, canonical_zero, canonical_zero⟩
      | cons d1 r2 =>
        simp only at h
        by_cases hd1 : d1 = '.'
        case neg => rw [if_neg hd1] at h; simp at h
        rw [if_pos hd1] at h
        cases hm2 : parseIntSem r2 with
        | none => rw [hm2] at h; simp at h
        | some pr2 =>
          obtain ⟨mino, r3⟩ := pr2
          rw [hm2] at h
          have hmino := parseIntSem_canonical hm2
          cases r3 with
          | nil =>
            simp only [Option.some.injEq] at h
            subst h
            exact ⟨hmaj, hmino, canonical_zero⟩
          | cons d2 r4 =>
            simp only at h
            by_cases hd2 : d2 = '.'
            case neg => rw [if_neg hd2] at h; simp at h
            rw [if_pos hd2] at h
            cases hm3 : parseIntSem r4 with
            | none => rw [hm3] at h; simp at h
            | some pr3 =>
              obtain ⟨pat, r5⟩ := pr3
              rw [hm3] at h
              simp only at h
              have hpat := parseIntSem_canonical hm3
              cases hm4 : parsePrereleaseOpt r5 with
              | none => rw [hm4] at h; simp at h
              | some pr4 =>
                obtain ⟨pre, r6⟩ := pr4
                rw [hm4] at h
                simp only at h
                cases hm5 : parseBuildOpt r6 with
                | none => rw [hm5] at h; simp at h
                | some pr5 =>
                  obtain ⟨bld, r7⟩ := pr5
                  rw [hm5] at h
                  simp only at h
                  by_cases hr7 : r7.isEmpty = true
                  · rw [if_pos hr7] at h
                    simp only [Option.some.injEq] at h
                    subst h
                    exact ⟨hmaj, hmino, hpat⟩
                  · rw [if_neg hr7] at h; simp at h

/-- Claim C7: for every input whose extraction succeeds and whose extracted
version is a syntactically valid semantic version, the gate fails with
`TooOldError` exactly when semantic-version ordering places the parsed
version strictly below the minimum `v3.19.0`, and succeeds exactly when the
parsed version is greater than or equal to the minimum (so a version equal
to the minimum is accepted). -/
theorem gate_too_old_boundary :
    ∀ (output s : List Char) (p : SemParsed),
      extractVersionFromOutput output = s → s ≠ [] →
      semverParse ('v' :: s) = some p →
      (checkHelmVersion output = Except.error (VersionError.tooOldError s) ↔ specBelowMin p)
      ∧ (checkHelmVersion output = Except.ok () ↔ ¬ specBelowMin p) := by
  intro output s p hs hne hp
  have hcanon := semverParse_canonical hp
  have hminp : semverParse minVersionChars =
      some (SemParsed.mk ['3'] ['1', '9'] ['0'] [] []) := rfl
  have e3 : digitsToNat ['3'] = 3 := rfl
  have e19 : digitsToNat ['1', '9'] = 19 := rfl
  have e0 : digitsToNat ['0'] = 0 := rfl
  have hcmp : (semverCompare ('v' :: s) minVersionChars < 0) ↔ specBelowMin p := by
    simp only [semverCompare, hp, hminp]
    rw [compareIntSem_correct hcanon.1 canonical_three,
      compareIntSem_correct hcanon.2.1 canonical_nineteen,
      compareIntSem_correct hcanon.2.2 canonical_zero,
      comparePrerelease_nil, e3, e19, e0]
    simp only [natCmpInt]
    rcases Nat.lt_trichotomy (digitsToNat p.major) 3 with h1 | h1 | h1
    · simp [h1, specBelowMin]
    · rcases Nat.lt_trichotomy (digitsToNat p.minor) 19 with h2 | h2 | h2
      · simp [h1, h2, specBelowMin]
      · rcases Nat.eq_zero_or_pos (digitsToNat p.patch) with h3 | h3
        · by_cases h4 : p.prerelease = []
          · simp [h1, h2, h3, h4, specBelowMin]
          · simp [h1, h2, h3, h4, specBelowMin]
        · have h3a : digitsToNat p.patch ≠ 0 := by omega
          simp [h1, h2, h3a, specBelowMin]
      · have h2a : digitsToNat p.minor ≠ 19 := by omega
        have h2b : ¬(digitsToNat p.minor < 19) := by omega
        simp [h1, h2a, h2b, specBelowMin]
    · have h1a : digitsToNat p.major ≠ 3 := by omega
      have h1b : ¬(digitsToNat p.major < 3) := by omega
      simp [h1a, h1b, specBelowMin]
  have hval : semverIsValid ('v' :: s) = true := by
    simp [semverIsValid, hp]
  have hie : s.isEmpty = false := by
    cases s with
    | nil => exact absurd rfl hne
    | cons a t => rfl
  have hgate : checkHelmVersion output =
      (if semverCompare ('v' :: s) minVersionChars < 0
        then Except.error (VersionError.tooOldError s) else Except.ok ()) := by
    simp only [checkHelmVersion, hs, hie, hval, Bool.not_true, Bool.false_eq_true,
      if_false]
  rw [hgate]
  by_cases hlt : semverCompare ('v' :: s) minVersionChars < 0
  · rw [if_pos hlt]
    refine ⟨⟨fun _ => hcmp.1 hlt, fun _ => rfl⟩, ?_, ?_⟩
    · intro hok; exact Except.noConfusion hok
    · intro hnsp; exact absurd (hcmp.1 hlt) hnsp
  · rw [if_neg hlt]
    refine ⟨⟨?_, ?_⟩, fun _ => fun hsp => hlt (hcmp.2 hsp), fun _ => rfl⟩
    · intro hok; exact Except.noConfusion hok
    · intro hsp; exact absurd (hcmp.2 hsp) hlt

/-- Concrete instance of claim C7 at `"3.18.9"`, strictly below the
minimum. -/
theorem gate_too_old_boundary_witness :
    checkHelmVersion ['3', '.', '1', '8', '.', '9'] =
      Except.error (VersionError.tooOldError ['3', '.', '1', '8', '.', '9']) :=
  (gate_too_old_boundary ['3', '.', '1', '8', '.', '9'] ['3', '.', '1', '8', '.', '9']
    (SemParsed.mk ['3'] ['1', '8'] ['9'] [] []) rfl (by decide) rfl).1.mpr
    (Or.inr (Or.inl (by decide)))

/-! ## Claim C2: the pagination stop condition -/

/-- Claim C2 (amended): the pagination loop starts at page 1 with the fixed
page size and, after a successful page, stops exactly when the
server-reported total count is at most `page * pageSize` — not when the
cumulative number of tenants returned so far reaches the total. -/
theorem pagination_stop_condition :
    (∀ (o : HarborOracle) (filter : List String) (fuel page : Nat)
       (acc : List HelmChart) (total : Nat) (payload : List String) (cs : List HelmChart),
      o.listProjects page defaultPageSize = Except.ok (total, payload) →
      pageProjectsLoop o filter payload = Except.ok cs →
      chartsLoop o filter (fuel + 1) page acc =
        (if total ≤ page * defaultPageSize then some (ListOutcome.ok (acc ++ cs), page)
         else chartsLoop o filter fuel (page + 1) (acc ++ cs)))
    ∧ (∀ (o : HarborOracle) (filter : List String) (fuel : Nat),
        getHarborChartmuseumCharts o filter fuel = chartsLoop o filter fuel 1 []) := by
  constructor
  · intro o filter fuel page acc total payload cs h1 h2
    simp only [chartsLoop, h1, h2]
  · intro o filter fuel
    rfl

/-- Counterexample to claim C2 as stated: with the inventory `oC2`
(page 1 returns 3 tenants, reported total 5) the loop stops after page 1,
although the cumulative number of tenants returned (3) has not reached the
reported total (5); the loop stops because `5 ≤ 1 * 10`. -/
theorem pagination_stops_before_cumulative_total_cx :
    oC2.listProjects 1 defaultPageSize = Except.ok (5, ["p1", "p2", "p3"])
    ∧ getHarborChartmuseumCharts oC2 [] 2 = some (ListOutcome.ok [], 1)
    ∧ ¬(5 ≤ 3) := by
  refine ⟨rfl, ?_, by decide⟩
  rfl

/-- Concrete instance of the amended claim C2 at the inventory `oC2`. -/
theorem pagination_stop_condition_witness :
    chartsLoop oC2 [] 2 1 [] = some (ListOutcome.ok [], 1) := by
  have h := pagination_stop_condition.1 oC2 [] 1 1 [] 5 ["p1", "p2", "p3"] [] rfl rfl
  simpa using h

/-! ## Claim C3: listing is all-or-nothing -/

theorem projectChartsLoop_ok_all (o : HarborOracle) (projectName : String) :
    ∀ (names : List String) (cs : List HelmChart),
      projectChartsLoop o projectName names = Except.ok cs →
      ∀ name ∈ names, ∃ vs, o.chartVersions projectName name = Except.ok vs := by
  intro names
  induction names with
  | nil => intro cs _ name hmem; simp at hmem
  | cons n rest ih =>
    intro cs h name hmem
    simp only [projectChartsLoop] at h
    cases hv : o.chartVersions projectName n with
    | error e => rw [hv] at h; simp at h
    | ok vs =>
      rw [hv] at h
      simp only at h
      cases hrec : projectChartsLoop o projectName rest with
      | error e => rw [hrec] at h; simp at h
      | ok more =>
        rcases List.mem_cons.1 hmem with hn | hn
        · subst hn; exact ⟨vs, hv⟩
        · exact ih more hrec name hn

/-- Claim C3: an HTTP error at any step of the listing aborts the whole
listing with a failure outcome that yields no descriptors, discarding every
previously accumulated descriptor: a page-listing error terminates the run
(`log.Fatal`, modelled as the `fatal` outcome), a project or version error
returns an error, and a successful project listing implies every per-name
version request succeeded. -/
theorem listing_all_or_nothing :
    (∀ (o : HarborOracle) (filter : List String) (fuel page : Nat)
       (acc : List HelmChart) (e : String),
      o.listProjects page defaultPageSize = Except.error e →
      chartsLoop o filter (fuel + 1) page acc =
        some (ListOutcome.fatal ("fail to list harbor projects of page: " ++ e), page))
    ∧ (∀ (o : HarborOracle) (filter : List String) (fuel page : Nat)
        (acc : List HelmChart) (total : Nat) (payload : List String) (e : String),
        o.listProjects page defaultPageSize = Except.ok (total, payload) →
        pageProjectsLoop o filter payload = Except.error e →
        chartsLoop o filter (fuel + 1) page acc = some (ListOutcome.err e, page))
    ∧ (∀ res : ListOutcome × Nat,
        res.1.isFailure = true → yieldedCharts (some res) = [])
    ∧ (∀ (o : HarborOracle) (projectName : String) (cs : List HelmChart),
        getHarborProjectChartmuseumCharts o projectName = Except.ok cs →
        ∃ names, o.repoCharts projectName = Except.ok names ∧
          ∀ name ∈ names, ∃ vs, o.chartVersions projectName name = Except.ok vs) := by
  refine ⟨?_, ?_, ?_, ?_⟩
  · intro o filter fuel page acc e h
    simp only [chartsLoop, h]
  · intro o filter fuel page acc total payload e h1 h2
    simp only [chartsLoop, h1, h2]
  · intro res h
    obtain ⟨r, q⟩ := res
    cases r with
    | ok cs => simp [ListOutcome.isFailure] at h
    | err m => rfl
    | fatal m => rfl
  · intro o projectName cs h
    simp only [getHarborProjectChartmuseumCharts] at h
    cases hr : o.repoCharts projectName with
    | error e => rw [hr] at h; simp at h
    | ok names =>
      rw [hr] at h
      simp only at h
      exact ⟨names, rfl, projectChartsLoop_ok_all o projectName names cs h⟩

/-- Concrete instance of claim C3: page 2 of `oErr` fails after page 1
succeeded, and every descriptor accumulated from page 1 is discarded. -/
theorem listing_all_or_nothing_witness :
    chartsLoop oErr [] 1 2 [hc0] =
      some (ListOutcome.fatal ("fail to list harbor projects of page: " ++ "boom"), 2) :=
  listing_all_or_nothing.1 oErr [] 0 2 [hc0] "boom" rfl

/-! ## Claim C8: the tenant filter -/

theorem Includes_iff_mem : ∀ (l : List String) (a : String), Includes l a = true ↔ a ∈ l := by
  intro l a
  induction l with
  | nil => simp [Includes]
  | cons b rest ih =>
    simp only [Includes, List.mem_cons]
    by_cases hb : b = a
    · simp [hb]
    · have hab : ¬(a = b) := fun hh => hb hh.symm
      simp [hb, hab, ih]

theorem filterOracle_repoCharts (o : HarborOracle) (fl : List String) :
    (filterOracle o fl).repoCharts = o.repoCharts := rfl

theorem filterOracle_chartVersions (o : HarborOracle) (fl : List String) :
    (filterOracle o fl).chartVersions = o.chartVersions := rfl

theorem projectChartsLoop_filterOracle (o : HarborOracle) (fl : List String) (pn : String) :
    ∀ names, projectChartsLoop (filterOracle o fl) pn names = projectChartsLoop o pn names := by
  intro names
  induction names with
  | nil => rfl
  | cons n rest ih =>
    simp only [projectChartsLoop, filterOracle_chartVersions, ih]

theorem getProjectCharts_filterOracle (o : HarborOracle) (fl : List String) (pn : String) :
    getHarborProjectChartmuseumCharts (filterOracle o fl) pn
      = getHarborProjectChartmuseumCharts o pn := by
  simp only [getHarborProjectChartmuseumCharts, filterOracle_repoCharts,
    projectChartsLoop_filterOracle]

theorem pageProjectsLoop_filterOracle (o : HarborOracle) (fl fl2 : List String) :
    ∀ payload, pageProjectsLoop (filterOracle o fl) fl2 payload
      = pageProjectsLoop o fl2 payload := by
  intro payload
  induction payload with
  | nil => rfl
  | cons p rest ih =>
    simp only [pageProjectsLoop, getProjectCharts_filterOracle, ih]

theorem pageProjectsLoop_filter (o : HarborOracle) (filter : List String) :
    ∀ payload, pageProjectsLoop o filter payload
      = pageProjectsLoop o [] (payload.filter (keepProject filter)) := by
  intro payload
  induction payload with
  | nil => rfl
  | cons p rest ih =>
    by_cases hk : keepProject filter p = true
    · have hskip : (decide (0 < filter.length) && !(Includes filter p)) = false := by
        have := hk
        simp only [keepProject, Bool.not_eq_true'] at this
        exact this
      rw [List.filter_cons_of_pos hk]
      simp only [pageProjectsLoop, hskip, Bool.false_eq_true, if_false]
      have hskip2 : (decide (0 < ([] : List String).length)
          && !(Includes ([] : List String) p)) = false := rfl
      simp only [hskip2, Bool.false_eq_true, if_false]
      rw [ih]
    · have hkf : keepProject filter p = false := by
        cases hv : keepProject filter p
        · rfl
        · exact absurd hv hk
      have hskip : (decide (0 < filter.length) && !(Includes filter p)) = true := by
        simp only [keepProject, Bool.not_eq_false'] at hkf
        exact hkf
      rw [List.filter_cons_of_neg (by simp [hkf])]
      simp only [pageProjectsLoop, hskip, if_true]
      exact ih

theorem chartsLoop_filter (o : HarborOracle) (filter : List String) :
    ∀ fuel page acc, chartsLoop o filter fuel page acc
      = chartsLoop (filterOracle o filter) [] fuel page acc := by
  intro fuel
  induction fuel with
  | zero => intro page acc; rfl
  | succ n ih =>
    intro page acc
    simp only [chartsLoop]
    cases hl : o.listProjects page defaultPageSize with
    | error e =>
      have hl2 : (filterOracle o filter).listProjects page defaultPageSize
          = Except.error e := by
        simp only [filterOracle, hl]
      rw [hl2]
    | ok pr =>
      obtain ⟨total, payload⟩ := pr
      have hl2 : (filterOracle o filter).listProjects page defaultPageSize
          = Except.ok (total, payload.filter (keepProject filter)) := by
        simp only [filterOracle, hl]
      rw [hl2]
      simp only
      rw [pageProjectsLoop_filterOracle, ← pageProjectsLoop_filter]
      cases hpp : pageProjectsLoop o filter payload with
      | error e => rfl
      | ok cs =>
        by_cases ht : total ≤ page * defaultPageSize
        · simp [ht]
        · simp only [if_neg ht]
          exact ih (page + 1) (acc ++ cs)

/-- Claim C8: a tenant's descriptors are produced exactly when the filter
is empty or the tenant is a member of the filter: `Includes` is list
membership, the Go skip condition keeps a project exactly when
`filter.isEmpty || Includes filter p`, the per-page loop equals the
unfiltered loop on the kept projects, and the whole listing equals the
unfiltered listing over the pre-filtered inventory. -/
theorem lister_tenant_filter :
    (∀ (l : List String) (a : String), Includes l a = true ↔ a ∈ l)
    ∧ (∀ (filter : List String) (p : String),
        keepProject filter p = (filter.isEmpty || Includes filter p))
    ∧ (∀ (o : HarborOracle) (filter : List String) (payload : List String),
        pageProjectsLoop o filter payload
          = pageProjectsLoop o [] (payload.filter (keepProject filter)))
    ∧ (∀ (o : HarborOracle) (filter : List String) (fuel : Nat),
        getHarborChartmuseumCharts o filter fuel
          = getHarborChartmuseumCharts (filterOracle o filter) [] fuel) := by
  refine ⟨Includes_iff_mem, ?_, ?_, ?_⟩
  · intro filter p
    cases filter with
    | nil => rfl
    | cons b rest =>
      simp only [keepProject, List.isEmpty_cons, Bool.false_or]
      simp [Bool.not_not]
  · exact fun o filter payload => pageProjectsLoop_filter o filter payload
  · intro o filter fuel
    exact chartsLoop_filter o filter fuel 1 []

/-! ## Claim C10: bounded pagination -/

theorem chartsLoop_stops_general (o : HarborOracle) (filter : List String) (N K : Nat)
    (hb : ∀ page total payload,
      o.listProjects page defaultPageSize = Except.ok (total, payload) → total ≤ N)
    (_hK1 : 1 ≤ K) (hKN : N ≤ 10 * K) :
    ∀ (fuel page : Nat) (acc : List HelmChart),
      1 ≤ page → page ≤ K → K < fuel + page →
      stopsWithin (chartsLoop o filter fuel page acc) K = true := by
  intro fuel
  induction fuel with
  | zero => intro page acc h1 h2 h3; omega
  | succ n ih =>
    intro page acc h1 h2 h3
    simp only [chartsLoop]
    cases hl : o.listProjects page defaultPageSize with
    | error e =>
      simp only [stopsWithin, decide_eq_true_eq]
      omega
    | ok pr =>
      obtain ⟨total, payload⟩ := pr
      simp only
      cases hpp : pageProjectsLoop o filter payload with
      | error e =>
        simp only [stopsWithin, decide_eq_true_eq]
        omega
      | ok cs =>
        simp only
        by_cases ht : total ≤ page * defaultPageSize
        · simp only [if_pos ht, stopsWithin, decide_eq_true_eq]
          omega
        · have hN := hb page total payload hl
          have hps : defaultPageSize = 10 := rfl
          rw [hps] at ht
          have hplt : page < K := by omega
          rw [hps, if_neg ht]
          exact ih (page + 1) (acc ++ cs) (by omega) (by omega) (by omega)

/-- Claim C10 (amended): if the server-reported total count is bounded by
`N` on every page, the pagination loop terminates and requests at most
`max 1 ⌈N / 10⌉` pages (one page is always requested, even when `N = 0`). -/
theorem pagination_terminates_bounded :
    ∀ (o : HarborOracle) (filter : List String) (N : Nat),
      (∀ page total payload,
        o.listProjects page defaultPageSize = Except.ok (total, payload) → total ≤ N) →
      ∀ fuel, max 1 ((N + 9) / 10) ≤ fuel →
        ∀ acc, stopsWithin (chartsLoop o filter fuel 1 acc) (max 1 ((N + 9) / 10)) = true := by
  intro o filter N hb fuel hf acc
  have hK1 : 1 ≤ max 1 ((N + 9) / 10) := Nat.le_max_left _ _
  have hKN : N ≤ 10 * max 1 ((N + 9) / 10) := by
    have h1 : N ≤ 10 * ((N + 9) / 10) := by omega
    have h2 : (N + 9) / 10 ≤ max 1 ((N + 9) / 10) := Nat.le_max_right _ _
    have h3 : 10 * ((N + 9) / 10) ≤ 10 * max 1 ((N + 9) / 10) :=
      Nat.mul_le_mul_left _ h2
    omega
  exact chartsLoop_stops_general o filter N (max 1 ((N + 9) / 10)) hb hK1 hKN fuel 1 acc
    (le_refl 1) hK1 (by omega)

/-- Counterexample to claim C10 as stated: the empty inventory `o0` reports
total count 0 on every page, so its totals are bounded by `N = 0`, and
`⌈0 / 10⌉ = 0`; yet the loop still requests page 1 before stopping, so it
does not stop within 0 pages. -/
theorem pagination_page_bound_cx :
    (∀ page total payload,
      o0.listProjects page defaultPageSize = Except.ok (total, payload) → total ≤ 0)
    ∧ getHarborChartmuseumCharts o0 [] 1 = some (ListOutcome.ok [], 1)
    ∧ stopsWithin (getHarborChartmuseumCharts o0 [] 1) ((0 + 9) / 10) = false := by
  refine ⟨?_, rfl, rfl⟩
  intro page total payload h
  have h2 : (0, ([] : List String)) = (total, payload) := by
    simpa [o0] using h
  have h3 : total = 0 := (Prod.mk.injEq .. ▸ h2).1.symm
  omega

/-- Concrete instance of the amended claim C10 at the empty inventory. -/
theorem pagination_terminates_bounded_witness :
    stopsWithin (chartsLoop o0 [] 1 1 []) (max 1 ((0 + 9) / 10)) = true :=
  pagination_terminates_bounded o0 [] 0
    (fun page total payload h => by
      have h2 : (0, ([] : List String)) = (total, payload) := by
        simpa [o0] using h
      have h3 : total = 0 := (Prod.mk.injEq .. ▸ h2).1.symm
      omega)
    1 (by decide) []

/-! ## Claim C1: push failure and cleanup -/

theorem pull_trace_no_remove (cfg : RunConfig) (w : WorldOracle) (hc : HelmChart) :
    ((pullChartFromChartmuseum cfg w hc).2).any isRemoveEffect = false := by
  simp only [pullChartFromChartmuseum]
  cases h : w.httpGet (chartURL cfg hc) with
  | error e => simp [isRemoveEffect]
  | ok pr =>
    obtain ⟨status, body⟩ := pr
    by_cases hs : status ≠ 200
    · simp [hs, isRemoveEffect]
    · cases hw : w.writeFile hc.ChartFileName body with
      | error e => simp [hs, hw, isRemoveEffect]
      | ok u => simp [hs, hw, isRemoveEffect]

/-- Claim C1 (amended): when Fetch succeeds and Push fails, the transfer
returns the push failure (`PushError`) as its failure cause, but does so by
short-circuiting: Cleanup is not attempted — no file-deletion effect occurs
in the transfer's trace.  (Cleanup runs only after a successful push.) -/
theorem transfer_push_failure_reports_push_error :
    ∀ (cfg : RunConfig) (w : WorldOracle) (hc : HelmChart) (e : String),
      (pullChartFromChartmuseum cfg w hc).1 = Except.ok () →
      w.runHelm (pushArgs cfg hc) = Except.error e →
      (migrateChartFromChartmuseumToOCI cfg w hc).1 = Except.error (TransferError.push e)
      ∧ ((migrateChartFromChartmuseumToOCI cfg w hc).2).any isRemoveEffect = false := by
  intro cfg w hc e h1 h2
  have hnr := pull_trace_no_remove cfg w hc
  cases hp : pullChartFromChartmuseum cfg w hc with
  | mk r1 tr1 =>
    rw [hp] at h1 hnr
    simp only at h1 hnr
    subst h1
    simp only [migrateChartFromChartmuseumToOCI, hp, pushChartToOCI, h2]
    constructor
    · trivial
    · simp [List.any_append, hnr, isRemoveEffect]

/-- Counterexample to claim C1 as stated: with `w0` (fetch succeeds, push
fails with stderr `boom`) the transfer returns the push error but its
effect trace contains no file deletion — Cleanup is not attempted. -/
theorem transfer_push_failure_no_cleanup_cx :
    (migrateChartFromChartmuseumToOCI cfg0 w0 hc0).1 = Except.error (TransferError.push "boom")
    ∧ ((migrateChartFromChartmuseumToOCI cfg0 w0 hc0).2).any isRemoveEffect = false := by
  exact ⟨rfl, rfl⟩

/-- Concrete instance of the amended claim C1 at `hc1` under `w0`. -/
theorem transfer_push_failure_reports_push_error_witness :
    (migrateChartFromChartmuseumToOCI cfg0 w0 hc1).1 = Except.error (TransferError.push "boom")
    ∧ ((migrateChartFromChartmuseumToOCI cfg0 w0 hc1).2).any isRemoveEffect = false :=
  transfer_push_failure_reports_push_error cfg0 w0 hc1 "boom" rfl rfl

/-! ## Claim C9: transfers never mutate the source backend -/

theorem pull_trace_readonly (cfg : RunConfig) (w : WorldOracle) (hc : HelmChart) :
    ((pullChartFromChartmuseum cfg w hc).2).all (sourceReadOnly cfg hc) = true := by
  simp only [pullChartFromChartmuseum]
  cases h : w.httpGet (chartURL cfg hc) with
  | error e => simp [sourceReadOnly]
  | ok pr =>
    obtain ⟨status, body⟩ := pr
    by_cases hs : status ≠ 200
    · simp [hs, sourceReadOnly]
    · cases hw : w.writeFile hc.ChartFileName body with
      | error e => simp [hs, hw, sourceReadOnly]
      | ok u => simp [hs, hw, sourceReadOnly]

theorem push_trace_readonly (cfg : RunConfig) (w : WorldOracle) (hc : HelmChart) :
    ((pushChartToOCI cfg w hc).2).all (sourceReadOnly cfg hc) = true := by
  simp only [pushChartToOCI]
  cases h : w.runHelm (pushArgs cfg hc) with
  | error e => simp [sourceReadOnly]
  | ok u => simp [sourceReadOnly]

theorem remove_trace_readonly (cfg : RunConfig) (w : WorldOracle) (hc : HelmChart) :
    ((removeChartFile w hc).2).all (sourceReadOnly cfg hc) = true := by
  simp only [removeChartFile]
  cases h : w.removeFile hc.ChartFileName with
  | error e => simp [sourceReadOnly]
  | ok u => simp [sourceReadOnly]

/-- Claim C9: every effect performed by a transfer is source-read-only:
the only HTTP request it issues is a GET of this chart's download URL on
the legacy backend, and the only deletion it performs targets the local
temporary chart file — the source backend is never written to or deleted
from. -/
theorem transfer_source_read_only :
    ∀ (cfg : RunConfig) (w : WorldOracle) (hc : HelmChart),
      ((migrateChartFromChartmuseumToOCI cfg w hc).2).all (sourceReadOnly cfg hc) = true := by
  intro cfg w hc
  have hpull := pull_trace_readonly cfg w hc
  have hpush := push_trace_readonly cfg w hc
  have hrem := remove_trace_readonly cfg w hc
  simp only [migrateChartFromChartmuseumToOCI]
  cases hp : pullChartFromChartmuseum cfg w hc with
  | mk r1 tr1 =>
    rw [hp] at hpull
    simp only at hpull
    cases r1 with
    | error e => simpa using hpull
    | ok u =>
      simp only
      cases hq : pushChartToOCI cfg w hc with
      | mk r2 tr2 =>
        rw [hq] at hpush
        simp only at hpush
        cases r2 with
        | error e => simp [List.all_append, hpull, hpush]
        | ok u2 =>
          simp only
          cases hr : removeChartFile w hc with
          | mk r3 tr3 =>
            rw [hr] at hrem
            simp only at hrem
            cases r3 with
            | error e => simp [List.all_append, hpull, hpush, hrem]
            | ok u3 => simp [List.all_append, hpull, hpush, hrem]

/-! ## Claim C4: the driver processes every descriptor and reports totals -/

theorem migrationLoop_spec (cfg : RunConfig) (w : WorldOracle) :
    ∀ (charts : List HelmChart) (ec : Nat),
      migrationLoop cfg w charts ec = (ec + countFail cfg w charts, charts) := by
  intro charts
  induction charts with
  | nil => intro ec; simp [migrationLoop, countFail]
  | cons hc rest ih =>
    intro ec
    simp only [migrationLoop, ih, countFail, List.countP_cons]
    by_cases h : exceptFailed (migrateChartFromChartmuseumToOCI cfg w hc).1 = true
    · simp only [h, if_true, if_pos]
      refine Prod.ext ?_ rfl
      simp only [countFail] at ih ⊢
      omega
    · have hf : exceptFailed (migrateChartFromChartmuseumToOCI cfg w hc).1 = false := by
        cases hv : exceptFailed (migrateChartFromChartmuseumToOCI cfg w hc).1
        · rfl
        · exact absurd hv h
      simp only [hf, Bool.false_eq_true, if_false]
      refine Prod.ext ?_ rfl
      simp only [countFail] at ih ⊢
      omega

/-- Claim C4: the driver processes the descriptors one at a time in listed
order (its processing trace is exactly the input sequence, even when
transfers fail), each failed transfer increments the failure counter while
the run continues, and the final report states the total count and the
total minus the number of failures. -/
theorem driver_order_and_summary :
    ∀ (cfg : RunConfig) (w : WorldOracle) (charts : List HelmChart),
      (migrationLoop cfg w charts 0).2 = charts
      ∧ (migrationLoop cfg w charts 0).1 = countFail cfg w charts
      ∧ countFail cfg w charts ≤ charts.length
      ∧ mainRun cfg w charts =
          (RunReport.mk charts.length (charts.length - countFail cfg w charts), charts) := by
  intro cfg w charts
  have h := migrationLoop_spec cfg w charts 0
  refine ⟨by rw [h], by rw [h]; omega, List.countP_le_length _, ?_⟩
  simp only [mainRun, h]
  refine Prod.ext ?_ rfl
  simp only
  congr 1
  omega

end Cm2Oci
